import Mathlib

/-!
# Verification of the ErlangRT core term model

Shallow embedding of the three source files of the repository:
* `src/term/fterm.rs` — the load-time "friendly" term type `FTerm` and its
  conversions (`from_word`, `to_lterm`, `to_lterm_vec`, `maybe_resolve_atom_`);
* `src/emulator/atom.rs` — the global atom interning table (`from_str`, `to_str`);
* `src/beam/opcodes/op_data.rs` — the `move` and `make_fun2` opcode handlers.

Rust panics/aborts are embedded as `none` of an `Option` result; a function
that cannot panic keeps its plain result type.  Machine words (`defs::Word`,
i.e. `usize`) are embedded as `Nat`; signed words (`defs::SWord`) as `Int`,
with the `as SWord` reinterpret cast made explicit.
-/

namespace ErlangRT

/-- Modelled from the spec: the constant `defs::WORD_BITS` (file `defs.rs` is
not part of the sources); §3 fixes a machine-word encoding, and the comment on
`FTerm::from_word` says a small integer fits "word size - 4 bits" on a 64-bit
word. -/
def WORD_BITS : Nat := 64

/-- Modelled from the spec: `defs::MAX_UNSIG_SMALL` (file `defs.rs` is not part
of the sources): the first unsigned word value that no longer fits a small
integer, i.e. `2 ^ (WORD_BITS - 4)` per the comment on `FTerm::from_word`
("word size - 4 bits"). -/
def MAX_UNSIG_SMALL : Nat := 2 ^ (WORD_BITS - 4)

/-- The Rust `w as SWord` reinterpret cast from `usize` to `isize`:
two's-complement reinterpretation of a 64-bit word. -/
def wordAsSWord (w : Nat) : Int :=
  if w < 2 ^ (WORD_BITS - 1) then (w : Int) else (w : Int) - 2 ^ WORD_BITS

/-- Modelled from the spec: the runtime Tagged Term `LTerm` (file
`term/lterm.rs` is not part of the sources).  §4.2: "a closed set of
constructors, one per category (atom, small integer, boxed pointer,
X-register, Y-register, float-register, nil, label, header-of-length-N)". -/
inductive LTerm : Type where
  | Atom (index : Nat)
  | SmallInt (val : Int)
  | BoxedPtr (p : Nat)
  | Xreg (i : Nat)
  | Yreg (i : Nat)
  | FPreg (i : Nat)
  | Nil
  | Header (len : Nat)
  | Label (i : Nat)
deriving DecidableEq, Repr

namespace LTerm

/-- `LTerm::make_atom`, modelled from the spec (§4.2 atom constructor). -/
def make_atom (i : Nat) : LTerm := .Atom i

/-- `LTerm::make_small_i` (signed small integer constructor), modelled from
the spec. -/
def make_small_i (i : Int) : LTerm := .SmallInt i

/-- `LTerm::make_small_u` (unsigned small integer constructor), modelled from
the spec. -/
def make_small_u (w : Nat) : LTerm := .SmallInt (w : Int)

/-- `LTerm::make_xreg`, modelled from the spec. -/
def make_xreg (i : Nat) : LTerm := .Xreg i

/-- `LTerm::make_yreg`, modelled from the spec. -/
def make_yreg (i : Nat) : LTerm := .Yreg i

/-- `LTerm::make_fpreg`, modelled from the spec. -/
def make_fpreg (i : Nat) : LTerm := .FPreg i

/-- `LTerm::make_label`, modelled from the spec. -/
def make_label (i : Nat) : LTerm := .Label i

/-- `LTerm::nil`, modelled from the spec. -/
def nil : LTerm := .Nil

/-- `LTerm::make_header`, modelled from the spec (§4.2
header-of-length-N constructor). -/
def make_header (n : Nat) : LTerm := .Header n

/-- `LTerm::is_atom`, modelled from the spec (§4.2 category predicates). -/
def is_atom : LTerm → Bool
  | .Atom _ => true
  | _ => false

/-- `LTerm::atom_index`, modelled from the spec (§4.2: accessors for a given
category fail when called on a term of a different category); the assert
failure is `none`. -/
def atom_index : LTerm → Option Nat
  | .Atom i => some i
  | _ => none

/-- `LTerm::box_ptr`, modelled from the spec (§4.2: boxed terms expose a raw
payload pointer; accessing it on a non-boxed term is a category failure,
embedded as `none`). -/
def box_ptr : LTerm → Option Nat
  | .BoxedPtr p => some p
  | _ => none

end LTerm

/-- The load-time friendly term `FTerm` of `src/term/fterm.rs`, one
constructor per Rust enum variant.  The `BigInt` payload is the exact integer
value; the `Float` payload is kept as an uninterpreted bit pattern. -/
inductive FTerm : Type where
  | Atom (w : Nat)
  | SmallInt (v : Int)
  | BigInt (v : Int)
  | Cons (cells : List FTerm)
  | Nil
  | Tuple (elems : List FTerm)
  | Tuple0
  | Float (bits : Nat)
  | X_ (w : Nat)
  | Y_ (w : Nat)
  | FP_ (w : Nat)
  | Label_ (w : Nat)
  | Atom_ (w : Nat)
  | Int_ (w : Nat)
  | Lit_ (w : Nat)
  | ExtList_ (elems : List FTerm)
  | AllocList_
deriving Repr

namespace FTerm

/-- `FTerm::from_word`: classify a word as a small integer if it is below
`MAX_UNSIG_SMALL`, otherwise promote to a `BigInt`
(`BigInt::from_usize(w)` keeps the exact value). -/
def from_word (w : Nat) : FTerm :=
  if w < MAX_UNSIG_SMALL then .SmallInt (wordAsSWord w)
  else .BigInt (w : Int)

/-- `FTerm::loadtime_atom_index`: the `Atom_` payload; panics otherwise. -/
def loadtime_atom_index : FTerm → Option Nat
  | .Atom_ w => some w
  | _ => none

/-- `FTerm::loadtime_word`: the `Int_` payload; panics otherwise. -/
def loadtime_word : FTerm → Option Nat
  | .Int_ w => some w
  | _ => none

/-- `FTerm::to_lterm`: convert a friendly term to a low-level term; the
catch-all `panic!` arm is `none`. -/
def to_lterm : FTerm → Option LTerm
  | .Atom i => some (LTerm.make_atom i)
  | .X_ i => some (LTerm.make_xreg i)
  | .Y_ i => some (LTerm.make_yreg i)
  | .FP_ i => some (LTerm.make_fpreg i)
  | .Label_ i => some (LTerm.make_label i)
  | .SmallInt i => some (LTerm.make_small_i i)
  | .Int_ i => some (LTerm.make_small_u i)
  | .Nil => some LTerm.nil
  | _ => none

/-- The loop body of `FTerm::to_lterm_vec`: convert every element of the
jump-table vector, aborting (`none`) as soon as one element's `to_lterm`
panics. -/
def to_lterm_elems : List FTerm → Option (List LTerm)
  | [] => some []
  | x :: xs =>
    match x.to_lterm, to_lterm_elems xs with
    | some t, some ts => some (t :: ts)
    | _, _ => none

/-- `FTerm::to_lterm_vec`: an `ExtList_` becomes a length header followed by
its elements converted in order; every other variant panics (`none`). -/
def to_lterm_vec : FTerm → Option (List LTerm)
  | .ExtList_ v =>
    match to_lterm_elems v with
    | some ts => some (LTerm.make_header v.length :: ts)
    | none => none
  | _ => none

mutual

/-- `FTerm::maybe_resolve_atom_`: the outer `Option` is panic-freedom (Rust
`Vec` indexing `atom_tab[i]` and `LTerm::atom_index` abort out of contract),
the inner `Option` is the source's `Option<FTerm>` "changed / no change"
sentinel. -/
def maybe_resolve_atom_ : FTerm → List LTerm → Option (Option FTerm)
  | .Atom_ i, atom_tab =>
    match atom_tab[i]? with
    | none => none
    | some a =>
      match a.atom_index with
      | none => none
      | some j => some (some (.Atom j))
  | .ExtList_ lst, atom_tab =>
    match resolveElems lst atom_tab with
    | none => none
    | some result => some (some (.ExtList_ result))
  | _, _ => some none

/-- The loop of the `ExtList_` arm of `maybe_resolve_atom_`: resolve each
element, keeping a clone of the element when the recursive call reports "no
change", and aborting when it panics. -/
def resolveElems : List FTerm → List LTerm → Option (List FTerm)
  | [], _ => some []
  | x :: xs, atom_tab =>
    match maybe_resolve_atom_ x atom_tab, resolveElems xs atom_tab with
    | some (some tmp), some rest => some (tmp :: rest)
    | some none, some rest => some (x :: rest)
    | _, _ => none

end

end FTerm

/-- Apply `maybe_resolve_atom_` the way its caller does: keep the original
term when the pass reports "no change" (`None`), take the rebuilt term when
it reports a change, propagate a panic. -/
def applyResolve (t : FTerm) (tab : List LTerm) : Option FTerm :=
  match FTerm.maybe_resolve_atom_ t tab with
  | none => none
  | some none => some t
  | some (some t') => some t'

/-! ## Atom table (`src/emulator/atom.rs`)

The global `AtomStorage` holds a forward map `atoms : BTreeMap<String, Word>`
and a reverse vector `atoms_r : Vec<String>`.  The map is embedded as an
association list looked up with `List.lookup` (insertion prepends, which is an
exact model of a finite map since `from_str` only inserts absent keys); the
vector as a `List String`.  The global mutable state is passed explicitly. -/

structure AtomStorage : Type where
  atoms : List (String × Nat)
  atoms_r : List String
deriving DecidableEq, Repr

/-- The initial (empty) atom storage built by `lazy_static!`. -/
def AtomStorage.empty : AtomStorage := ⟨[], []⟩

/-- `BTreeMap` keyed lookup over the association-list model of the forward
map. -/
def lookupAtom (v : String) : List (String × Nat) → Option Nat
  | [] => none
  | (k, i) :: rest => if v = k then some i else lookupAtom v rest

/-- `atom::from_str`: return the existing index when the text is present in
the forward map; otherwise assign the next index `atoms_r.len()`, record the
text in both maps, and return the new index.  Returns the packed
`LTerm::make_atom` term together with the updated storage. -/
def from_str (val : String) (st : AtomStorage) : LTerm × AtomStorage :=
  match lookupAtom val st.atoms with
  | some i => (LTerm.make_atom i, st)
  | none =>
    let index := st.atoms_r.length
    (LTerm.make_atom index,
      { atoms := (val, index) :: st.atoms,
        atoms_r := st.atoms_r ++ [val] })

/-- `atom::to_str`: assert the term is an atom and read the reverse map at the
atom's index; the assert and the vector indexing panic out of contract
(`none`). -/
def to_str (a : LTerm) (st : AtomStorage) : Option String :=
  match a with
  | .Atom i => st.atoms_r[i]?
  | _ => none

/-- Run a sequence of `from_str` calls against a storage, returning the final
storage (the serialisation of a trace of interning calls). -/
def runIntern : List String → AtomStorage → AtomStorage
  | [], st => st
  | v :: vs, st => runIntern vs (from_str v st).2

/-- The mutual-consistency invariant of the two maps (spec §3: "forward and
reverse maps are always mutually consistent"): forward lookup and reverse
indexing are inverse. -/
structure Consistent (st : AtomStorage) : Prop where
  fwd : ∀ s i, lookupAtom s st.atoms = some i → st.atoms_r[i]? = some s
  rev : ∀ i s, st.atoms_r[i]? = some s → lookupAtom s st.atoms = some i

/-- The distinct texts of a list of interning calls, in order of first
occurrence (the "n-th distinct interned text" of the spec, §8). -/
def distinctTexts (l : List String) : List String :=
  l.foldl (fun acc v => if v ∈ acc then acc else acc ++ [v]) []

/-! ## Opcodes (`src/beam/opcodes/op_data.rs`)

The per-instruction execution context (`emulator/runtime_ctx.rs`) and the
process structure are not part of the sources; they are modelled from the
spec, §4.4: `fetch_term` "advances an internal cursor over the current
instruction's operand stream and returns the next operand verbatim", and
`store` "writes the value into the addressed slot of the current process's
register file or stack frame". -/

/-- Modelled from the spec: the dispatch outcome (`rt_defs::DispatchResult` is
not part of the sources).  §4.4: "Dispatch result is one of: normal
continuation ..., or a control-transfer signal". -/
inductive DispatchResult : Type where
  | Normal
  | ControlTransfer
deriving DecidableEq, Repr

/-- Modelled from the spec: the execution context (`emulator/runtime_ctx.rs`
is not part of the sources): a decoding cursor over the operand stream plus
the X register file and the Y stack frame of the running process (§2 item 5,
§4.4). -/
structure Context : Type where
  ip : List LTerm
  regs : List LTerm
  stack : List LTerm
deriving DecidableEq, Repr

/-- Modelled from the spec: the process as seen by an opcode handler
(`emulator/process.rs` is not part of the sources): only its heap is passed
to `store`, and the handlers here never allocate on it. -/
structure Process : Type where
  heap : List LTerm
deriving DecidableEq, Repr

/-- Modelled from the spec: `Context::fetch_term` advances the cursor and
returns the next operand verbatim (§4.4); an exhausted operand stream is a
decode fault (`none`). -/
def fetch_term (ctx : Context) : Option (LTerm × Context) :=
  match ctx.ip with
  | [] => none
  | t :: rest => some (t, { ctx with ip := rest })

/-- Modelled from the spec: loading a source operand ("Load a value from
`src` ... Source can be any literal term, a register or a stack cell", the
doc comment of `opcode_move`; spec §8: a register source stores the
register's content): a register / stack-slot reference reads the addressed
slot, any other term is the value itself. -/
def load_operand (val : LTerm) (ctx : Context) : Option LTerm :=
  match val with
  | .Xreg i => ctx.regs[i]?
  | .Yreg i => ctx.stack[i]?
  | v => some v

/-- Modelled from the spec: `Context::store` loads the source operand and
writes the resulting value to a register or stack-slot destination (§4.4);
any other destination kind, or an out-of-range slot, is a contract violation
(`none`).  Source and destination kinds are orthogonal: no combination is
special-cased. -/
def store (val : LTerm) (dst : LTerm) (ctx : Context) : Option Context :=
  match load_operand val ctx with
  | none => none
  | some v =>
    match dst with
    | .Xreg i => if i < ctx.regs.length
        then some { ctx with regs := ctx.regs.set i v } else none
    | .Yreg i => if i < ctx.stack.length
        then some { ctx with stack := ctx.stack.set i v } else none
    | _ => none

/-- Modelled from the spec: the generated opcode number of `move`
(`beam/gen_op.rs` is not part of the sources; 64 is the standard BEAM
assignment). -/
def OPCODE_MOVE : Nat := 64

/-- Modelled from the spec: the generated opcode number of `make_fun2`
(standard BEAM assignment 103). -/
def OPCODE_MAKE_FUN2 : Nat := 103

/-- Modelled from the spec: the declared arity of each opcode from the
generated `gen_op` table (§4.4: "Each opcode handler declares its fixed
operand arity"). -/
def gen_op_arity (opcode : Nat) : Nat :=
  if opcode = OPCODE_MOVE then 2
  else if opcode = OPCODE_MAKE_FUN2 then 1
  else 0

/-- Modelled from the spec: `opcodes::assert_arity` checks the decoded arity
against the declaration and fails on mismatch (§4.4). -/
def assert_arity (opcode : Nat) (arity : Nat) : Bool :=
  gen_op_arity opcode = arity

/-- `opcode_move` (`src/beam/opcodes/op_data.rs`): assert arity 2, fetch the
source operand, fetch the destination operand, store the source into the
destination, return `DispatchResult::Normal`.  A failing assert or a fetch /
store contract violation aborts (`none`). -/
def opcode_move (ctx : Context) (curr_p : Process) :
    Option (Context × Process × DispatchResult) :=
  if assert_arity OPCODE_MOVE 2 then
    match fetch_term ctx with
    | none => none
    | some (src, ctx1) =>
      match fetch_term ctx1 with
      | none => none
      | some (dst, ctx2) =>
        match store src dst ctx2 with
        | none => none
        | some ctx3 => some (ctx3, curr_p, .Normal)
  else none

/-- `opcode_make_fun2` (`src/beam/opcodes/op_data.rs`): assert arity 1, fetch
the boxed function-entry operand, take its box pointer, then unconditionally
`panic!("boom")` — the trailing `DispatchResult::Normal` of the source is
unreachable, so the embedding is `none` on every path. -/
def opcode_make_fun2 (ctx : Context) (_curr_p : Process) :
    Option (Context × Process × DispatchResult) :=
  if assert_arity OPCODE_MAKE_FUN2 1 then
    match fetch_term ctx with
    | none => none
    | some (fe_box, _ctx1) =>
      match fe_box.box_ptr with
      | none => none
      | some _fe => none
  else none

end ErlangRT

namespace ErlangRT

/-! ## Helper lemmas -/

/-- The element loop of `to_lterm_vec` is `mapM` of `to_lterm`. -/
theorem to_lterm_elems_eq_mapM (v : List FTerm) :
    FTerm.to_lterm_elems v = v.mapM FTerm.to_lterm := by
  induction v with
  | nil => rfl
  | cons x xs ih =>
    simp only [FTerm.to_lterm_elems, ih, List.mapM_cons]
    cases FTerm.to_lterm x <;> cases xs.mapM FTerm.to_lterm <;> rfl

/-- A successful element conversion preserves the element count. -/
theorem to_lterm_elems_length (v : List FTerm) (ts : List LTerm)
    (h : FTerm.to_lterm_elems v = some ts) : ts.length = v.length := by
  induction v generalizing ts with
  | nil =>
    simp only [FTerm.to_lterm_elems, Option.some.injEq] at h
    simp [← h]
  | cons x xs ih =>
    simp only [FTerm.to_lterm_elems] at h
    cases hx : FTerm.to_lterm x <;> rw [hx] at h
    · exact absurd h (by simp)
    · cases hxs : FTerm.to_lterm_elems xs <;> rw [hxs] at h
      · exact absurd h (by simp)
      · obtain rfl := Option.some.inj h
        simp [ih _ hxs]

/-- Unfolding equation of `maybe_resolve_atom_` at a load-time atom. -/
theorem maybe_resolve_atom_Atom_ (i : Nat) (tab : List LTerm) :
    FTerm.maybe_resolve_atom_ (FTerm.Atom_ i) tab =
      match tab[i]? with
      | none => none
      | some a =>
        match a.atom_index with
        | none => none
        | some j => some (some (FTerm.Atom j)) := rfl

/-- Unfolding equation of `maybe_resolve_atom_` at a jump table. -/
theorem maybe_resolve_ExtList_ (lst : List FTerm) (tab : List LTerm) :
    FTerm.maybe_resolve_atom_ (FTerm.ExtList_ lst) tab =
      match FTerm.resolveElems lst tab with
      | none => none
      | some result => some (some (FTerm.ExtList_ result)) := rfl

/-- Unfolding equation of `resolveElems` at a cons cell. -/
theorem resolveElems_cons (x : FTerm) (xs : List FTerm) (tab : List LTerm) :
    FTerm.resolveElems (x :: xs) tab =
      match FTerm.maybe_resolve_atom_ x tab, FTerm.resolveElems xs tab with
      | some (some tmp), some rest => some (tmp :: rest)
      | some none, some rest => some (x :: rest)
      | _, _ => none := rfl

/-- Every variant other than a load-time atom or a jump table resolves to the
"no change" sentinel. -/
theorem maybe_resolve_no_change (t : FTerm) (tab : List LTerm)
    (hA : ∀ i, t ≠ FTerm.Atom_ i) (hE : ∀ l, t ≠ FTerm.ExtList_ l) :
    FTerm.maybe_resolve_atom_ t tab = some none := by
  cases t <;> first | rfl | exact absurd rfl (hA _) | exact absurd rfl (hE _)

/-- A panicking element makes the whole `resolveElems` loop panic. -/
theorem resolveElems_panic (tab : List LTerm) (lst : List FTerm) (x : FTerm)
    (hmem : x ∈ lst) (hx : FTerm.maybe_resolve_atom_ x tab = none) :
    FTerm.resolveElems lst tab = none := by
  induction lst with
  | nil => cases hmem
  | cons y ys ih =>
    rcases List.mem_cons.mp hmem with hxy | hmem2
    · subst hxy
      rw [resolveElems_cons, hx]
    · rw [resolveElems_cons, ih hmem2]
      cases FTerm.maybe_resolve_atom_ y tab with
      | none => rfl
      | some o => cases o <;> rfl

mutual

/-- Resolving the value produced by a successful resolution pass leaves it
unchanged. -/
theorem applyResolve_idem (t : FTerm) (tab : List LTerm) (t' : FTerm)
    (h : applyResolve t tab = some t') : applyResolve t' tab = some t' := by
  cases t
  case Atom_ i =>
    unfold applyResolve at h
    rw [maybe_resolve_atom_Atom_] at h
    cases htab : tab[i]? with
    | none => rw [htab] at h; exact absurd h (by simp)
    | some a =>
      simp only [htab] at h
      cases ha : LTerm.atom_index a with
      | none => simp only [ha] at h; exact Option.noConfusion h
      | some j =>
        simp only [ha] at h
        obtain rfl := Option.some.inj h
        rfl
  case ExtList_ lst =>
    unfold applyResolve at h
    rw [maybe_resolve_ExtList_] at h
    cases hre : FTerm.resolveElems lst tab with
    | none => rw [hre] at h; exact absurd h (by simp)
    | some r =>
      simp only [hre] at h
      obtain rfl := Option.some.inj h
      have hr : FTerm.resolveElems r tab = some r := resolveElems_idem lst tab r hre
      unfold applyResolve
      rw [maybe_resolve_ExtList_, hr]
  all_goals (cases Option.some.inj h; rfl)

/-- `resolveElems` of its own successful output is that output again. -/
theorem resolveElems_idem (lst : List FTerm) (tab : List LTerm) (lst' : List FTerm)
    (h : FTerm.resolveElems lst tab = some lst') :
    FTerm.resolveElems lst' tab = some lst' := by
  cases lst with
  | nil =>
    obtain rfl : lst' = [] := by
      have h0 : (some [] : Option (List FTerm)) = some lst' := h
      exact (Option.some.inj h0).symm
    rfl
  | cons x xs =>
    rw [resolveElems_cons] at h
    cases hx : FTerm.maybe_resolve_atom_ x tab with
    | none => rw [hx] at h; exact absurd h (by cases FTerm.resolveElems xs tab <;> simp)
    | some o =>
      cases hxs : FTerm.resolveElems xs tab with
      | none =>
        rw [hx, hxs] at h
        exact absurd h (by cases o <;> simp)
      | some rest =>
        rw [hx, hxs] at h
        have hrest : FTerm.resolveElems rest tab = some rest :=
          resolveElems_idem xs tab rest hxs
        cases o with
        | none =>
          obtain rfl := Option.some.inj h
          rw [resolveElems_cons, hx, hrest]
        | some tmp =>
          obtain rfl := Option.some.inj h
          have hax : applyResolve x tab = some tmp := by
            unfold applyResolve
            rw [hx]
          have h2 : applyResolve tmp tab = some tmp := applyResolve_idem x tab tmp hax
          unfold applyResolve at h2
          rw [resolveElems_cons, hrest]
          cases hmt : FTerm.maybe_resolve_atom_ tmp tab with
          | none => rw [hmt] at h2; exact absurd h2 (by simp)
          | some o2 =>
            rw [hmt] at h2
            cases o2 with
            | none => rfl
            | some u =>
              obtain rfl := Option.some.inj h2
              rfl

end

/-! ## Claims -/

/-- C1 (amended): `to_lterm` converts one-for-one exactly the variants
`Atom`, `X_`, `Y_`, `FP_`, `Label_`, `SmallInt`, `Int_` and `Nil` — the
load-time-only label and raw-word variants included — and fails fatally on
the load-time-only `Atom_`, `Lit_`, `ExtList_` and `AllocList_` variants and
also on the runtime-safe `BigInt`, `Cons`, `Tuple`, `Tuple0` and `Float`
variants. -/
theorem C1_to_lterm_characterisation (i : Nat) (v : Int) (l : List FTerm) (bits : Nat) :
    FTerm.to_lterm (FTerm.Atom i) = some (LTerm.make_atom i) ∧
    FTerm.to_lterm (FTerm.X_ i) = some (LTerm.make_xreg i) ∧
    FTerm.to_lterm (FTerm.Y_ i) = some (LTerm.make_yreg i) ∧
    FTerm.to_lterm (FTerm.FP_ i) = some (LTerm.make_fpreg i) ∧
    FTerm.to_lterm (FTerm.Label_ i) = some (LTerm.make_label i) ∧
    FTerm.to_lterm (FTerm.SmallInt v) = some (LTerm.make_small_i v) ∧
    FTerm.to_lterm (FTerm.Int_ i) = some (LTerm.make_small_u i) ∧
    FTerm.to_lterm FTerm.Nil = some LTerm.nil ∧
    FTerm.to_lterm (FTerm.BigInt v) = none ∧
    FTerm.to_lterm (FTerm.Cons l) = none ∧
    FTerm.to_lterm (FTerm.Tuple l) = none ∧
    FTerm.to_lterm FTerm.Tuple0 = none ∧
    FTerm.to_lterm (FTerm.Float bits) = none ∧
    FTerm.to_lterm (FTerm.Atom_ i) = none ∧
    FTerm.to_lterm (FTerm.Lit_ i) = none ∧
    FTerm.to_lterm (FTerm.ExtList_ l) = none ∧
    FTerm.to_lterm FTerm.AllocList_ = none :=
  ⟨rfl, rfl, rfl, rfl, rfl, rfl, rfl, rfl, rfl, rfl, rfl, rfl, rfl, rfl, rfl, rfl, rfl⟩

/-- C1 counterexample: `to_lterm` converts the load-time-only unresolved
label `Label_` and raw word `Int_` instead of failing, and fails on the
runtime-safe zero-arity tuple. -/
theorem C1_counterexample :
    FTerm.to_lterm (FTerm.Label_ 0) = some (LTerm.make_label 0) ∧
    FTerm.to_lterm (FTerm.Int_ 7) = some (LTerm.make_small_u 7) ∧
    FTerm.to_lterm FTerm.Tuple0 = none :=
  ⟨rfl, rfl, rfl⟩

/-- C2 (amended): resolution is idempotent at the value level — a second
`maybe_resolve_atom_` pass over the result of a successful first pass leaves
the value unchanged — and the second pass returns the "no change" sentinel
for every result that is not a jump table; a jump table `ExtList_` is always
rebuilt and returned as a change even when nothing in it changed. -/
theorem C2_resolve_idempotent (t : FTerm) (tab : List LTerm) (t' : FTerm)
    (h : applyResolve t tab = some t') :
    applyResolve t' tab = some t' ∧
    ((∀ l, t' ≠ FTerm.ExtList_ l) → FTerm.maybe_resolve_atom_ t' tab = some none) := by
  have h2 := applyResolve_idem t tab t' h
  refine ⟨h2, fun hne => ?_⟩
  have hA : ∀ i, t' ≠ FTerm.Atom_ i := by
    rintro i rfl
    unfold applyResolve at h2
    rw [maybe_resolve_atom_Atom_] at h2
    cases htab : tab[i]? with
    | none => rw [htab] at h2; exact absurd h2 (by simp)
    | some a =>
      simp only [htab] at h2
      cases ha : LTerm.atom_index a with
      | none => simp only [ha] at h2; exact Option.noConfusion h2
      | some j =>
        simp only [ha] at h2
        exact absurd (Option.some.inj h2) (by simp)
  exact maybe_resolve_no_change t' tab hA hne

/-- C2 witness: resolving the load-time atom `Atom_ 0` against the snapshot
`[Atom 7]` yields the runtime atom `Atom 7`; re-resolving that result leaves
it unchanged and reports "no change". -/
theorem C2_witness :
    applyResolve (FTerm.Atom_ 0) [LTerm.Atom 7] = some (FTerm.Atom 7) ∧
    applyResolve (FTerm.Atom 7) [LTerm.Atom 7] = some (FTerm.Atom 7) ∧
    FTerm.maybe_resolve_atom_ (FTerm.Atom 7) [LTerm.Atom 7] = some none :=
  ⟨rfl,
   (C2_resolve_idempotent (FTerm.Atom_ 0) [LTerm.Atom 7] (FTerm.Atom 7) rfl).1,
   (C2_resolve_idempotent (FTerm.Atom_ 0) [LTerm.Atom 7] (FTerm.Atom 7) rfl).2
     (fun _ hl => FTerm.noConfusion hl)⟩

/-- C2 counterexample: an empty jump table contains no unresolved load-time
atom reference, yet `maybe_resolve_atom_` rebuilds it and reports a change
(`Some`), not the "no change" sentinel (`None`); since the rebuilt value is
the same empty jump table, the second call reports a change again. -/
theorem C2_counterexample :
    FTerm.maybe_resolve_atom_ (FTerm.ExtList_ []) [] =
      some (some (FTerm.ExtList_ [])) ∧
    FTerm.maybe_resolve_atom_ (FTerm.ExtList_ []) [] ≠ some none := by
  refine ⟨rfl, fun h => ?_⟩
  have h2 : (some (some (FTerm.ExtList_ [])) : Option (Option FTerm)) = some none := h
  simp at h2

/-- C4: `from_word` classifies a word as a small integer exactly when it is
strictly below `MAX_UNSIG_SMALL`, preserving its value without truncation,
and promotes `MAX_UNSIG_SMALL` and every larger word to a big integer. -/
theorem C4_from_word_boundary (w : Nat) :
    (w < MAX_UNSIG_SMALL → FTerm.from_word w = FTerm.SmallInt (w : Int)) ∧
    (MAX_UNSIG_SMALL ≤ w → FTerm.from_word w = FTerm.BigInt (w : Int)) ∧
    FTerm.from_word (MAX_UNSIG_SMALL - 1) =
      FTerm.SmallInt ((MAX_UNSIG_SMALL - 1 : Nat) : Int) ∧
    FTerm.from_word MAX_UNSIG_SMALL = FTerm.BigInt (MAX_UNSIG_SMALL : Int) := by
  refine ⟨fun h => ?_, fun h => ?_, ?_, ?_⟩
  · have h63 : w < 2 ^ (WORD_BITS - 1) :=
      lt_of_lt_of_le h (by norm_num [MAX_UNSIG_SMALL, WORD_BITS])
    simp [FTerm.from_word, wordAsSWord, h, h63]
  · simp [FTerm.from_word, not_lt.mpr h]
  · have h1 : MAX_UNSIG_SMALL - 1 < MAX_UNSIG_SMALL := by
      norm_num [MAX_UNSIG_SMALL, WORD_BITS]
    have h63 : MAX_UNSIG_SMALL - 1 < 2 ^ (WORD_BITS - 1) := by
      norm_num [MAX_UNSIG_SMALL, WORD_BITS]
    simp [FTerm.from_word, wordAsSWord, h1, h63]
  · simp [FTerm.from_word]

/-- C4 witness: 42 is classified small with its exact value; `2 ^ 60`
(the modelled `MAX_UNSIG_SMALL`) is promoted to a big integer. -/
theorem C4_witness :
    FTerm.from_word 42 = FTerm.SmallInt 42 ∧
    FTerm.from_word (2 ^ 60) = FTerm.BigInt ((2 ^ 60 : Nat) : Int) := by
  constructor
  · have := (C4_from_word_boundary 42).1 (by norm_num [MAX_UNSIG_SMALL, WORD_BITS])
    simpa using this
  · exact (C4_from_word_boundary (2 ^ 60)).2.1
      (by norm_num [MAX_UNSIG_SMALL, WORD_BITS])

/-- C7 (amended): for a jump table `ExtList_` of N entries each of which is
itself convertible by `to_lterm`, `to_lterm_vec` produces the length header
followed by the N converted entries in order — N+1 terms in total; it fails
on a jump table with an unconvertible entry and on every other variant. -/
theorem C7_to_lterm_vec_expansion (v : List FTerm) (ts : List LTerm) (t : FTerm)
    (hconv : v.mapM FTerm.to_lterm = some ts)
    (hne : ∀ l, t ≠ FTerm.ExtList_ l) :
    FTerm.to_lterm_vec (FTerm.ExtList_ v) = some (LTerm.make_header v.length :: ts) ∧
    (LTerm.make_header v.length :: ts).length = v.length + 1 ∧
    FTerm.to_lterm_vec t = none := by
  have helems : FTerm.to_lterm_elems v = some ts :=
    (to_lterm_elems_eq_mapM v).trans hconv
  refine ⟨?_, ?_, ?_⟩
  · simp [FTerm.to_lterm_vec, helems]
  · simp [to_lterm_elems_length v ts helems]
  · cases t <;> first | rfl | exact absurd rfl (hne _)

/-- C7 witness: a two-entry jump table expands to a header of length 2
followed by the two converted entries. -/
theorem C7_witness :
    FTerm.to_lterm_vec (FTerm.ExtList_ [FTerm.Atom 3, FTerm.SmallInt 5]) =
      some [LTerm.make_header 2, LTerm.make_atom 3, LTerm.make_small_i 5] ∧
    ([LTerm.make_header 2, LTerm.make_atom 3, LTerm.make_small_i 5] : List LTerm).length
      = 2 + 1 ∧
    FTerm.to_lterm_vec FTerm.Nil = none :=
  C7_to_lterm_vec_expansion [FTerm.Atom 3, FTerm.SmallInt 5]
    [LTerm.make_atom 3, LTerm.make_small_i 5] FTerm.Nil rfl
    (fun _ hl => FTerm.noConfusion hl)

/-- C7 counterexample: a jump table holding one entry with no runtime
conversion (`AllocList_`) makes `to_lterm_vec` fail instead of producing a
sequence of two terms. -/
theorem C7_counterexample :
    FTerm.to_lterm_vec (FTerm.ExtList_ [FTerm.AllocList_]) = none := rfl

/-- C10: resolving a load-time atom `Atom_ i` against a snapshot is defined
exactly under the precondition that `i` is in range: in range it returns the
runtime atom holding the snapshot entry's atom index, out of range it aborts
(`none`, the embedded out-of-bounds panic) rather than reporting "no
change"; an out-of-range `Atom_` nested in a jump table aborts the whole
jump-table resolution the same way. -/
theorem C10_resolve_atom_precondition (i j : Nat) (tab : List LTerm) (lst : List FTerm) :
    (tab[i]? = some (LTerm.Atom j) →
      FTerm.maybe_resolve_atom_ (FTerm.Atom_ i) tab = some (some (FTerm.Atom j))) ∧
    (tab.length ≤ i → FTerm.maybe_resolve_atom_ (FTerm.Atom_ i) tab = none) ∧
    (tab.length ≤ i → FTerm.Atom_ i ∈ lst →
      FTerm.maybe_resolve_atom_ (FTerm.ExtList_ lst) tab = none) := by
  refine ⟨fun h => ?_, fun h => ?_, fun h hmem => ?_⟩
  · rw [maybe_resolve_atom_Atom_, h]
    rfl
  · rw [maybe_resolve_atom_Atom_, List.getElem?_eq_none h]
  · have hx : FTerm.maybe_resolve_atom_ (FTerm.Atom_ i) tab = none := by
      rw [maybe_resolve_atom_Atom_, List.getElem?_eq_none h]
    rw [maybe_resolve_ExtList_, resolveElems_panic tab lst _ hmem hx]

/-- Unfolding equation of the forward-map lookup at a cons cell. -/
theorem lookupAtom_cons (s k : String) (i : Nat) (rest : List (String × Nat)) :
    lookupAtom s ((k, i) :: rest) = if s = k then some i else lookupAtom s rest := rfl

/-- The empty storage is consistent. -/
theorem consistent_empty : Consistent AtomStorage.empty :=
  ⟨fun _ _ h => Option.noConfusion h,
   fun _ _ h => by simp [AtomStorage.empty] at h⟩

/-- `from_str` of a text already in the forward map returns its index and
leaves the storage unchanged. -/
theorem from_str_existing (v : String) (st : AtomStorage) (i : Nat)
    (h : lookupAtom v st.atoms = some i) :
    from_str v st = (LTerm.make_atom i, st) := by
  unfold from_str
  rw [h]

/-- `from_str` of a fresh text assigns the next index `atoms_r.length` and
records the text in both maps. -/
theorem from_str_fresh (v : String) (st : AtomStorage)
    (h : lookupAtom v st.atoms = none) :
    from_str v st = (LTerm.make_atom st.atoms_r.length,
      ⟨(v, st.atoms_r.length) :: st.atoms, st.atoms_r ++ [v]⟩) := by
  unfold from_str
  rw [h]

/-- One `from_str` call preserves mutual consistency of the two maps. -/
theorem consistent_from_str (v : String) (st : AtomStorage) (h : Consistent st) :
    Consistent (from_str v st).2 := by
  cases hl : lookupAtom v st.atoms with
  | some i => rw [from_str_existing v st i hl]; exact h
  | none =>
    rw [from_str_fresh v st hl]
    refine ⟨?_, ?_⟩
    · intro s j hs
      rw [lookupAtom_cons] at hs
      by_cases hsv : s = v
      · subst hsv
        rw [if_pos rfl] at hs
        obtain rfl := Option.some.inj hs
        exact List.getElem?_concat_length st.atoms_r s
      · rw [if_neg hsv] at hs
        have hf := h.fwd s j hs
        obtain ⟨hj, -⟩ := List.getElem?_eq_some_iff.mp hf
        rw [List.getElem?_append_left hj]
        exact hf
    · intro j s hs
      by_cases hj : j < st.atoms_r.length
      · rw [List.getElem?_append_left hj] at hs
        have hr := h.rev j s hs
        have hsv : s ≠ v := by
          rintro rfl
          rw [hl] at hr
          exact Option.noConfusion hr
        rw [lookupAtom_cons, if_neg hsv]
        exact hr
      · rw [List.getElem?_append_right (Nat.le_of_not_lt hj)] at hs
        cases hk : j - st.atoms_r.length with
        | zero =>
          rw [hk] at hs
          have h0 : ([v] : List String)[(0 : Nat)]? = some v := by simp
          rw [h0] at hs
          obtain rfl := Option.some.inj hs
          have hjl : j = st.atoms_r.length := by omega
          subst hjl
          rw [lookupAtom_cons, if_pos rfl]
        | succ m =>
          rw [hk] at hs
          simp at hs

/-- A `from_str` call never changes an existing forward-map entry. -/
theorem lookupAtom_from_str_persist (v s : String) (i : Nat) (st : AtomStorage)
    (h : lookupAtom s st.atoms = some i) :
    lookupAtom s (from_str v st).2.atoms = some i := by
  cases hl : lookupAtom v st.atoms with
  | some j => rw [from_str_existing v st j hl]; exact h
  | none =>
    rw [from_str_fresh v st hl, lookupAtom_cons]
    have hsv : s ≠ v := by
      rintro rfl
      rw [hl] at h
      exact Option.noConfusion h
    rw [if_neg hsv]
    exact h

/-- A trace of `from_str` calls never changes an existing forward-map
entry. -/
theorem lookupAtom_runIntern_persist (l : List String) (s : String) (i : Nat)
    (st : AtomStorage) (h : lookupAtom s st.atoms = some i) :
    lookupAtom s (runIntern l st).atoms = some i := by
  induction l generalizing st with
  | nil => exact h
  | cons v vs ih => exact ih _ (lookupAtom_from_str_persist v s i st h)

/-- A trace of `from_str` calls preserves mutual consistency. -/
theorem consistent_runIntern (l : List String) (st : AtomStorage) (h : Consistent st) :
    Consistent (runIntern l st) := by
  induction l generalizing st with
  | nil => exact h
  | cons v vs ih => exact ih _ (consistent_from_str v st h)

/-- In a consistent storage, a text sits in the reverse vector exactly when
the forward map knows it. -/
theorem mem_atoms_r_iff_lookup (st : AtomStorage) (h : Consistent st) (v : String) :
    v ∈ st.atoms_r ↔ (lookupAtom v st.atoms).isSome := by
  rw [List.mem_iff_getElem?]
  constructor
  · rintro ⟨i, hi⟩
    rw [h.rev i v hi]
    rfl
  · intro hs
    cases hi : lookupAtom v st.atoms with
    | none => rw [hi] at hs; exact Bool.noConfusion hs
    | some i => exact ⟨i, h.fwd v i hi⟩

/-- The reverse vector after a trace of calls is the fold that appends each
text not seen before. -/
theorem runIntern_atoms_r (l : List String) (st : AtomStorage) (h : Consistent st) :
    (runIntern l st).atoms_r
      = l.foldl (fun acc v => if v ∈ acc then acc else acc ++ [v]) st.atoms_r := by
  induction l generalizing st with
  | nil => rfl
  | cons v vs ih =>
    have hstep : (from_str v st).2.atoms_r
        = if v ∈ st.atoms_r then st.atoms_r else st.atoms_r ++ [v] := by
      cases hl : lookupAtom v st.atoms with
      | some i =>
        rw [from_str_existing v st i hl,
          if_pos ((mem_atoms_r_iff_lookup st h v).mpr (by rw [hl]; rfl))]
      | none =>
        have hv : v ∉ st.atoms_r := by
          rw [mem_atoms_r_iff_lookup st h v, hl]
          simp
        rw [from_str_fresh v st hl, if_neg hv]
    show (runIntern vs (from_str v st).2).atoms_r = _
    rw [List.foldl_cons, ← hstep, ih _ (consistent_from_str v st h)]

/-- Running a trace over a concatenation runs the two parts in order. -/
theorem runIntern_append (l1 l2 : List String) (st : AtomStorage) :
    runIntern (l1 ++ l2) st = runIntern l2 (runIntern l1 st) := by
  induction l1 generalizing st with
  | nil => rfl
  | cons v vs ih =>
    show runIntern (vs ++ l2) (from_str v st).2 = _
    exact ih _

/-- The dedup-append fold only ever extends its accumulator. -/
theorem foldl_distinct_extends (l : List String) (init : List String) :
    ∃ t, l.foldl (fun acc v => if v ∈ acc then acc else acc ++ [v]) init = init ++ t := by
  induction l generalizing init with
  | nil => exact ⟨[], by simp⟩
  | cons v vs ih =>
    rw [List.foldl_cons]
    by_cases hv : v ∈ init
    · rw [if_pos hv]
      exact ih init
    · rw [if_neg hv]
      obtain ⟨t, ht⟩ := ih (init ++ [v])
      exact ⟨v :: t, by rw [ht, List.append_assoc]; rfl⟩

/-- C10 witness: in-range resolution returns the snapshot's atom index 7;
index 2 against a one-entry snapshot aborts, alone and inside a jump
table. -/
theorem C10_witness :
    FTerm.maybe_resolve_atom_ (FTerm.Atom_ 0) [LTerm.Atom 7] =
      some (some (FTerm.Atom 7)) ∧
    FTerm.maybe_resolve_atom_ (FTerm.Atom_ 2) [LTerm.Atom 7] = none ∧
    FTerm.maybe_resolve_atom_
      (FTerm.ExtList_ [FTerm.SmallInt 1, FTerm.Atom_ 2]) [LTerm.Atom 7] = none :=
  ⟨(C10_resolve_atom_precondition 0 7 [LTerm.Atom 7] []).1 rfl,
   (C10_resolve_atom_precondition 2 0 [LTerm.Atom 7] []).2.1 (by decide),
   (C10_resolve_atom_precondition 2 0 [LTerm.Atom 7]
      [FTerm.SmallInt 1, FTerm.Atom_ 2]).2.2 (by decide) (by simp)⟩

/-- C3: over any consistent storage, interning `a` and then `b` returns the
same atom term exactly when the two texts are equal, and resolving the atom
term returned by interning `a` yields `a` back. -/
theorem C3_intern_bijection (a b : String) (st : AtomStorage) (hst : Consistent st) :
    ((from_str a st).1 = (from_str b (from_str a st).2).1 ↔ a = b) ∧
    to_str (from_str a st).1 (from_str a st).2 = some a := by
  cases hla : lookupAtom a st.atoms with
  | some i =>
    rw [from_str_existing a st i hla]
    refine ⟨?_, ?_⟩
    · cases hlb : lookupAtom b st.atoms with
      | some j =>
        rw [from_str_existing b st j hlb]
        constructor
        · intro heq
          have hij : i = j := by simpa [LTerm.make_atom] using heq
          subst hij
          exact Option.some.inj ((hst.fwd a i hla).symm.trans (hst.fwd b i hlb))
        · rintro rfl
          rw [hla] at hlb
          rw [Option.some.inj hlb]
      | none =>
        rw [from_str_fresh b st hlb]
        constructor
        · intro heq
          have hin : i = st.atoms_r.length := by simpa [LTerm.make_atom] using heq
          obtain ⟨hlt, -⟩ := List.getElem?_eq_some_iff.mp (hst.fwd a i hla)
          omega
        · rintro rfl
          rw [hla] at hlb
          exact Option.noConfusion hlb
    · show st.atoms_r[i]? = some a
      exact hst.fwd a i hla
  | none =>
    rw [from_str_fresh a st hla]
    refine ⟨?_, ?_⟩
    · by_cases hba : b = a
      · subst hba
        have hlb : lookupAtom b ((b, st.atoms_r.length) :: st.atoms)
            = some st.atoms_r.length := by
          rw [lookupAtom_cons, if_pos rfl]
        rw [from_str_existing b _ _ hlb]
        simp
      · cases hlb : lookupAtom b st.atoms with
        | some j =>
          have hlb2 : lookupAtom b ((a, st.atoms_r.length) :: st.atoms) = some j := by
            rw [lookupAtom_cons, if_neg hba]
            exact hlb
          rw [from_str_existing b _ j hlb2]
          constructor
          · intro heq
            have hnj : st.atoms_r.length = j := by simpa [LTerm.make_atom] using heq
            obtain ⟨hlt, -⟩ := List.getElem?_eq_some_iff.mp (hst.fwd b j hlb)
            omega
          · intro hab
            exact absurd hab.symm hba
        | none =>
          have hlb2 : lookupAtom b ((a, st.atoms_r.length) :: st.atoms) = none := by
            rw [lookupAtom_cons, if_neg hba]
            exact hlb
          rw [from_str_fresh b _ hlb2]
          constructor
          · intro heq
            simp [LTerm.make_atom] at heq
          · intro hab
            exact absurd hab.symm hba
    · show (st.atoms_r ++ [a])[st.atoms_r.length]? = some a
      exact List.getElem?_concat_length st.atoms_r a

/-- C3 witness: two distinct texts interned in sequence over the empty
storage receive distinct atom terms, equal texts receive the same term, and
`to_str` inverts the interning. -/
theorem C3_witness :
    ((from_str "ok" AtomStorage.empty).1
        = (from_str "error" (from_str "ok" AtomStorage.empty).2).1
      ↔ "ok" = "error") ∧
    to_str (from_str "ok" AtomStorage.empty).1 (from_str "ok" AtomStorage.empty).2
      = some "ok" :=
  C3_intern_bijection "ok" "error" AtomStorage.empty consistent_empty

/-- C5: after any trace of interning calls over the empty storage, the table
is consistent, the reverse vector holds exactly the distinct texts in first
occurrence order (so the n-th distinct text carries index n-1), every
reverse entry maps back through the forward map to its own index, indices
are append-only under any further calls, and no assigned index is ever
changed. -/
theorem C5_index_assignment (l l2 : List String) :
    Consistent (runIntern l AtomStorage.empty) ∧
    (runIntern l AtomStorage.empty).atoms_r = distinctTexts l ∧
    (∀ i s, (runIntern l AtomStorage.empty).atoms_r[i]? = some s →
      lookupAtom s (runIntern l AtomStorage.empty).atoms = some i) ∧
    (∃ t, (runIntern (l ++ l2) AtomStorage.empty).atoms_r
        = (runIntern l AtomStorage.empty).atoms_r ++ t) ∧
    (∀ s i, lookupAtom s (runIntern l AtomStorage.empty).atoms = some i →
      lookupAtom s (runIntern (l ++ l2) AtomStorage.empty).atoms = some i) := by
  have hc : Consistent (runIntern l AtomStorage.empty) :=
    consistent_runIntern l AtomStorage.empty consistent_empty
  refine ⟨hc, ?_, fun i s h => hc.rev i s h, ?_, fun s i h => ?_⟩
  · exact runIntern_atoms_r l AtomStorage.empty consistent_empty
  · rw [runIntern_append, runIntern_atoms_r l2 _ hc]
    exact foldl_distinct_extends l2 _
  · rw [runIntern_append]
    exact lookupAtom_runIntern_persist l2 s i _ h

/-- C5 witness: the trace a, b, a assigns index 0 to a and 1 to b, a
duplicate changes nothing, and a later c is appended with index 2 while b
keeps index 1. -/
theorem C5_witness :
    (runIntern ["a", "b", "a"] AtomStorage.empty).atoms_r = ["a", "b"] ∧
    lookupAtom "b" (runIntern ["a", "b", "a"] AtomStorage.empty).atoms = some 1 ∧
    (runIntern (["a", "b", "a"] ++ ["c"]) AtomStorage.empty).atoms_r
      = ["a", "b", "c"] ∧
    lookupAtom "b" (runIntern (["a", "b", "a"] ++ ["c"]) AtomStorage.empty).atoms
      = some 1 := by
  refine ⟨(C5_index_assignment ["a", "b", "a"] []).2.1.trans (by decide), ?_, ?_, ?_⟩
  · apply (C5_index_assignment ["a", "b", "a"] []).2.2.1 1 "b"
    rw [(C5_index_assignment ["a", "b", "a"] []).2.1]
    decide
  · exact (C5_index_assignment (["a", "b", "a"] ++ ["c"]) []).2.1.trans (by decide)
  · apply (C5_index_assignment ["a", "b", "a"] ["c"]).2.2.2.2 "b" 1
    apply (C5_index_assignment ["a", "b", "a"] []).2.2.1 1 "b"
    rw [(C5_index_assignment ["a", "b", "a"] []).2.1]
    decide

/-- `opcode_move` on a two-operand stream is exactly fetch, fetch, store,
normal continuation. -/
theorem opcode_move_eq (src dst : LTerm) (rest regs stack heap : List LTerm) :
    opcode_move ⟨src :: dst :: rest, regs, stack⟩ ⟨heap⟩
      = (store src dst ⟨rest, regs, stack⟩).map
          (fun c => (c, (⟨heap⟩ : Process), DispatchResult.Normal)) := by
  show (match store src dst ⟨rest, regs, stack⟩ with
        | none => none
        | some c => some (c, (⟨heap⟩ : Process), DispatchResult.Normal)) = _
  cases store src dst ⟨rest, regs, stack⟩ <;> rfl

/-- C6: the move handler validates its declared arity of 2, then fetches the
source, fetches the destination, performs one uniform `store` for every
source and destination combination, and returns the normal continuation; in
particular storing the literal `SmallInt 42` into register i makes reading
register i yield `SmallInt 42`, and moving a register-held atom into stack
slot 0 puts that same atom index there. -/
theorem C6_opcode_move (src : LTerm) (i : Nat) (rest regs stack heap : List LTerm) :
    assert_arity OPCODE_MOVE 2 = true ∧
    (∀ dst, opcode_move ⟨src :: dst :: rest, regs, stack⟩ ⟨heap⟩
        = (store src dst ⟨rest, regs, stack⟩).map
            (fun c => (c, (⟨heap⟩ : Process), DispatchResult.Normal))) ∧
    (i < regs.length →
      opcode_move ⟨LTerm.SmallInt 42 :: LTerm.Xreg i :: rest, regs, stack⟩ ⟨heap⟩
        = some (⟨rest, regs.set i (LTerm.SmallInt 42), stack⟩, ⟨heap⟩,
            DispatchResult.Normal) ∧
      (regs.set i (LTerm.SmallInt 42))[i]? = some (LTerm.SmallInt 42)) ∧
    (∀ a, regs[1]? = some (LTerm.Atom a) → 0 < stack.length →
      opcode_move ⟨LTerm.Xreg 1 :: LTerm.Yreg 0 :: rest, regs, stack⟩ ⟨heap⟩
        = some (⟨rest, regs, stack.set 0 (LTerm.Atom a)⟩, ⟨heap⟩,
            DispatchResult.Normal)) := by
  refine ⟨rfl, fun dst => opcode_move_eq src dst rest regs stack heap,
    fun hlt => ⟨?_, List.getElem?_set_self hlt⟩, fun a ha hs => ?_⟩
  · rw [opcode_move_eq]
    have hstore : store (LTerm.SmallInt 42) (LTerm.Xreg i) ⟨rest, regs, stack⟩
        = some ⟨rest, regs.set i (LTerm.SmallInt 42), stack⟩ := by
      unfold store load_operand
      simp [hlt]
    rw [hstore]
    rfl
  · rw [opcode_move_eq]
    have hstore : store (LTerm.Xreg 1) (LTerm.Yreg 0) ⟨rest, regs, stack⟩
        = some ⟨rest, regs, stack.set 0 (LTerm.Atom a)⟩ := by
      unfold store load_operand
      simp only [ha]
      simp [hs]
    rw [hstore]
    rfl

/-- C6 witness: `move(src=SmallInt 42, dst=Register 3)` over a four-register
file stores 42 in register 3 and continues normally, and register 3 then
reads back `SmallInt 42`. -/
theorem C6_witness :
    opcode_move ⟨[LTerm.SmallInt 42, LTerm.Xreg 3],
        [LTerm.Nil, LTerm.Nil, LTerm.Nil, LTerm.Nil], []⟩ ⟨[]⟩
      = some (⟨[], [LTerm.Nil, LTerm.Nil, LTerm.Nil, LTerm.SmallInt 42], []⟩, ⟨[]⟩,
          DispatchResult.Normal) ∧
    ([LTerm.Nil, LTerm.Nil, LTerm.Nil, LTerm.Nil].set 3 (LTerm.SmallInt 42))[3]?
      = some (LTerm.SmallInt 42) :=
  (C6_opcode_move (LTerm.SmallInt 42) 3 []
    [LTerm.Nil, LTerm.Nil, LTerm.Nil, LTerm.Nil] [] []).2.2.1 (by decide)

/-- C8 (amended): the make-closure handler fetches the boxed function-entry
reference and then aborts unconditionally (the deliberate `panic!("boom")`
placeholder): it never constructs a closure and never returns a dispatch
outcome — the trailing normal continuation in the source is unreachable. -/
theorem C8_make_fun2_stub (ctx : Context) (p : Process) :
    opcode_make_fun2 ctx p = none := by
  obtain ⟨ip, regs, stack⟩ := ctx
  cases ip with
  | nil => rfl
  | cons t rest => cases t <;> rfl

/-- C8 counterexample: with a well-formed boxed function-entry operand the
handler still aborts instead of returning a dispatch outcome. -/
theorem C8_counterexample :
    opcode_make_fun2 ⟨[LTerm.BoxedPtr 0], [], []⟩ ⟨[]⟩ = none := rfl

end ErlangRT
